import Mathlib

/-! Party bootstrap of the MOTION controller template (`controller.cxx`).

A shallow embedding of the descriptor regular expression `kPartyArgumentRegex`,
of `CheckPartyArgumentSyntax`, `ParsePartyArgument`, the `--parties` validation
loop of `ParseProgramOptions` and of `CreateParty`, followed by the properties
of the bootstrap specification that these functions decide.

`std::string` is modelled by `String`, read through its list of characters;
`std::size_t` is the 64-bit unsigned range and `std::uint16_t` the 16-bit one.
Exceptions are modelled by `Except`.
-/

namespace Conclave

/-! ## The fragment of ECMAScript regular expressions used by the controller -/

/-- A pattern that consumes exactly one character: the class `\d` or a literal
character (`,` and the escaped `\.`). -/
inductive Atom where
  | digit : Atom
  | lit (c : Char) : Atom
deriving DecidableEq

/-- The regular expressions that `kPartyArgumentRegex` is built from: a single
atom, a greedy bounded repetition `a{min,max}` of an atom (`a+` is `a{1,}`),
concatenation, and a numbered capture group. -/
inductive Regex where
  | atom (a : Atom) : Regex
  | rep (a : Atom) (min : Nat) (max : Option Nat) : Regex
  | seq (r s : Regex) : Regex
  | group (k : Nat) (r : Regex) : Regex
deriving DecidableEq

/-- The contents of the capture groups, most recently closed group first. -/
abbrev Captures := List (Nat × List Char)

/-- Whether an atom accepts a character. In the classic locale `\d` is the
ASCII range `0`-`9`. -/
def Atom.test : Atom → Char → Bool
  | .digit, c => c.isDigit
  | .lit a, c => c == a

/-- Greedy repetition of an atom: every input remainder that can be left after
consuming between `min` and `max` accepted characters, longest consumption
first. -/
def repRests (a : Atom) (min : Nat) (max : Option Nat) (inp : List Char) :
    List (List Char) :=
  match inp with
  | [] => if min = 0 then [[]] else []
  | x :: xs =>
    (if a.test x && max != some 0 then
        repRests a (min - 1) (max.map (fun m => m - 1)) xs
      else [])
      ++ (if min = 0 then [x :: xs] else [])

/-- Backtracking matcher: all ways of matching a regular expression at the
start of `inp`, in the order the backtracking search tries them, each given as
the unconsumed remainder and the capture groups set so far. -/
def Regex.run : Regex → List Char → Captures → List (List Char × Captures)
  | .atom a, inp, c =>
    match inp with
    | [] => []
    | x :: xs => if a.test x then [(xs, c)] else []
  | .rep a lo hi, inp, c => (repRests a lo hi inp).map (fun rest => (rest, c))
  | .seq r s, inp, c => (r.run inp c).flatMap (fun p => s.run p.1 p.2)
  | .group k r, inp, c =>
    (r.run inp c).map
      (fun p => (p.1, (k, inp.take (inp.length - p.1.length)) :: p.2))

/-- Model of `std::regex_match(s, match, re)`: the first way of matching the
whole of `s`, if there is one. `none` is the `false` result, which leaves the
match results empty. -/
def regex_match (re : Regex) (s : List Char) : Option Captures :=
  ((re.run s []).find? (fun p => p.1.isEmpty)).map (fun p => p.2)

/-- Model of `match[k]` converted to a string: the text of group `k`; the empty
string for a group that did not take part and for every index after a failed
match. -/
def subMatch (m : Option Captures) (k : Nat) : List Char :=
  match m with
  | none => []
  | some c => (c.lookup k).getD []

/-- The pattern `\d{1,3}`. -/
def octetRegex : Regex := .rep .digit 1 (some 3)

/-- The pattern `\.`. -/
def dotRegex : Regex := .atom (.lit '.')

/-- The pattern `,`. -/
def commaRegex : Regex := .atom (.lit ',')

/-- The regular expression
`(\d+),(\d{1,3}\.\d{1,3}\.\d{1,3}\.\d{1,3}),(\d{1,5})`. -/
def kPartyArgumentRegex : Regex :=
  .seq (.group 1 (.rep .digit 1 none))
    (.seq commaRegex
      (.seq
        (.group 2
          (.seq octetRegex (.seq dotRegex (.seq octetRegex (.seq dotRegex
            (.seq octetRegex (.seq dotRegex octetRegex)))))))
        (.seq commaRegex (.group 3 (.rep .digit 1 (some 5))))))

/-- `CheckPartyArgumentSyntax`: whether the whole argument matches the
pattern. -/
def CheckPartyArgumentSyntax (party_argument : String) : Bool :=
  (regex_match kPartyArgumentRegex party_argument.data).isSome

/-! ## The descriptor grammar, as the specification words it -/

/-- A run of ASCII digits whose length lies between `lo` and `hi`. -/
def IsDigitGroup (lo hi : Nat) (w : List Char) : Prop :=
  (∀ x ∈ w, x.isDigit = true) ∧ lo ≤ w.length ∧ w.length ≤ hi

/-- One or more ASCII digits. -/
def IsDigits (w : List Char) : Prop :=
  (∀ x ∈ w, x.isDigit = true) ∧ 1 ≤ w.length

/-- Exactly four dot-separated groups of 1 to 3 ASCII digits. -/
def IsHost (h : List Char) : Prop :=
  ∃ a b c d, h = a ++ '.' :: (b ++ '.' :: (c ++ '.' :: d)) ∧
    IsDigitGroup 1 3 a ∧ IsDigitGroup 1 3 b ∧ IsDigitGroup 1 3 c ∧ IsDigitGroup 1 3 d

/-- The whole of `s` is `id,host,port` with the given three fields. -/
def IsDescriptor (s idf host portf : List Char) : Prop :=
  s = idf ++ ',' :: (host ++ ',' :: portf) ∧
    IsDigits idf ∧ IsHost host ∧ IsDigitGroup 1 5 portf

/-- Full-string membership in the descriptor grammar. -/
def InGrammar (s : List Char) : Prop :=
  ∃ idf host portf, IsDescriptor s idf host portf

/-- Declarative meaning of a regular expression: `w` is matched, taking the
captures from `c` to `c2`. -/
def Regex.Matches : Regex → List Char → Captures → Captures → Prop
  | .atom a, w, c, c2 => (∃ x, w = [x] ∧ a.test x = true) ∧ c2 = c
  | .rep a lo hi, w, c, c2 =>
    (∀ x ∈ w, a.test x = true) ∧ lo ≤ w.length ∧
      (∀ m, hi = some m → w.length ≤ m) ∧ c2 = c
  | .seq r s, w, c, c2 =>
    ∃ w1 w2 cm, w = w1 ++ w2 ∧ r.Matches w1 c cm ∧ s.Matches w2 cm c2
  | .group k r, w, c, c2 => ∃ cm, r.Matches w c cm ∧ c2 = (k, w) :: cm

/-! ## Integer conversion and `ParsePartyArgument` -/

/-- The exceptions the bootstrap can raise. The `std::runtime_error`s are kept
apart by where they are thrown; `what` gives their message. `transport` wraps
whatever the connection setup of the communication library raises. -/
inductive Error where
  | bad_lexical_cast : Error
  | myIdNotSet : Error
  | partiesNotSet : Error
  | incorrectPartyArgument (p : String) : Error
  | myIdOutOfRange (my_id number_of_parties : Nat) : Error
  | partyIdOutOfRange (party_id number_of_parties : Nat) : Error
  | transport (e : String) : Error
deriving DecidableEq

deriving instance DecidableEq for Except

/-- The message carried by each exception. -/
def Error.what : Error → String
  | .bad_lexical_cast =>
    "bad lexical cast: source type value could not be interpreted as target"
  | .myIdNotSet => "My id is not set but required"
  | .partiesNotSet => "Other parties' information is not set but required"
  | .incorrectPartyArgument p => "Incorrect party argument syntax " ++ p
  | .myIdOutOfRange my_id n =>
    "My id needs to be in the range [0, #parties - 1], current my id is "
      ++ toString my_id ++ " and #parties is " ++ toString n
  | .partyIdOutOfRange party_id n =>
    "Party's id needs to be in the range [0, #parties - 1], current id is "
      ++ toString party_id ++ " and #parties is " ++ toString n
  | .transport e => e

/-- Largest value of `std::size_t`. -/
def SIZE_MAX : Nat := 2 ^ 64 - 1

/-- Largest value of `std::uint16_t`. -/
def UINT16_MAX : Nat := 2 ^ 16 - 1

/-- Value of a decimal digit character. -/
def digitValue (c : Char) : Nat := c.toNat - 48

/-- Value of a string of decimal digits, most significant digit first. -/
def decimalValue (w : List Char) : Nat :=
  w.foldl (fun acc c => 10 * acc + digitValue c) 0

/-- Model of `boost::lexical_cast<T>` for an unsigned integer type `T` with
largest value `max`: an optional sign, then one or more decimal digits whose
value must fit `T`; a minus sign negates modulo `max + 1`. Anything else,
the empty string included, throws `bad_lexical_cast`. -/
def lexical_cast (max : Nat) (s : List Char) : Except Error Nat :=
  let has_minus := s.head? == some '-'
  let body := if has_minus || s.head? == some '+' then s.tail else s
  if !body.isEmpty && body.all Char.isDigit && decide (decimalValue body ≤ max) then
    .ok (if has_minus then (max + 1 - decimalValue body) % (max + 1) else decimalValue body)
  else
    .error .bad_lexical_cast

/-- `ParsePartyArgument`: match the argument against the pattern, then convert
group 1 to `std::size_t`, take group 2 as the host and convert group 3 to
`std::uint16_t`. The result of the match is not inspected. -/
def ParsePartyArgument (party_argument : String) : Except Error (Nat × String × Nat) :=
  let m := regex_match kPartyArgumentRegex party_argument.data
  match lexical_cast SIZE_MAX (subMatch m 1) with
  | .error e => .error e
  | .ok id =>
    let host := String.mk (subMatch m 2)
    match lexical_cast UINT16_MAX (subMatch m 3) with
    | .error e => .error e
    | .ok port => .ok (id, host, port)

/-- Writing a descriptor back: decimal id, comma, host, comma, decimal port. -/
def serialize (d : Nat × String × Nat) : String :=
  String.mk (Nat.toDigits 10 d.1 ++ ',' :: (d.2.1.data ++ ',' :: Nat.toDigits 10 d.2.2))

/-- A digit string without superfluous leading zeros. -/
def IsCanonical (w : List Char) : Prop := w = ['0'] ∨ w.head? ≠ some '0'

/-! ## `ParseProgramOptions` and `CreateParty` -/

/-- The loop of `ParseProgramOptions` over the `--parties` values: every value
is checked in list order and the first one that fails the check is thrown;
the values are collected for printing when `print` is set. -/
def checkParties (print : Bool) : List String → String → Except Error String
  | [], parties => .ok parties
  | p :: rest, parties =>
    if CheckPartyArgumentSyntax p then
      checkParties print rest (if print then parties ++ (" " ++ p) else parties)
    else
      .error (.incorrectPartyArgument p)

/-- `ParseProgramOptions` from the point where the options are stored and help
was not asked for: `my-id` and `parties` are required, and every party
argument has to pass `CheckPartyArgumentSyntax`. Returns the two option
values. -/
def ParseProgramOptions (print : Bool) (my_id : Option Nat)
    (parties : Option (List String)) : Except Error (Nat × List String) :=
  match my_id with
  | none => .error .myIdNotSet
  | some id =>
    match parties with
    | none => .error .partiesNotSet
    | some other_parties =>
      match checkParties print other_parties "Other parties: " with
      | .error e => .error e
      | .ok _ => .ok (id, other_parties)

/-- Modelled from the spec: the id-indexed topology table, an ordered mapping
from party id to `(host, port)`. The type `TcpPartiesConfiguration` is declared
in the communication library, which is not part of the sources. -/
abbrev TcpPartiesConfiguration := List (String × Nat)

/-- Modelled from the spec: the entry a freshly sized table holds for an id that
no descriptor has set yet (an empty host and port 0). -/
def defaultEntry : String × Nat := ("", 0)

/-- The loop of `CreateParty` over the party strings: parse each one, reject an
id that is not below the number of parties, and store `(host, port)` at the
index of the id. -/
def fillPartiesConfiguration (number_of_parties : Nat) :
    List String → TcpPartiesConfiguration → Except Error TcpPartiesConfiguration
  | [], parties_configuration => .ok parties_configuration
  | party_string :: rest, parties_configuration =>
    match ParsePartyArgument party_string with
    | .error e => .error e
    | .ok (party_id, host, port) =>
      if party_id ≥ number_of_parties then
        .error (.partyIdOutOfRange party_id number_of_parties)
      else
        fillPartiesConfiguration number_of_parties rest
          (parties_configuration.set party_id (host, port))

/-- The outcome of the connection setup as an outcome of `CreateParty`: an
exception of the communication library passes through unchanged. -/
def liftTransport {Party : Type} : Except String Party → Except Error Party
  | .error e => .error (.transport e)
  | .ok party => .ok party

/-- `CreateParty`: check the local id against the number of party strings, fill
the table, then hand the local id and the table to the connection setup of the
communication library, which is the parameter `setupConnections`. -/
def CreateParty {Party : Type} (setupConnections : Nat → TcpPartiesConfiguration → Except String Party)
    (parties_string : List String) (my_id : Nat) : Except Error Party :=
  let number_of_parties := parties_string.length
  if my_id ≥ number_of_parties then
    .error (.myIdOutOfRange my_id number_of_parties)
  else
    match fillPartiesConfiguration number_of_parties parties_string
        (List.replicate number_of_parties defaultEntry) with
    | .error e => .error e
    | .ok parties_configuration =>
      liftTransport (setupConnections my_id parties_configuration)

/-- The bootstrap as `main` runs it: `ParseProgramOptions`, then
`CreateParty` on the options it returned. Reading the input table, which
`main` does between the two calls, is left out. -/
def bootstrap {Party : Type} (setupConnections : Nat → TcpPartiesConfiguration → Except String Party)
    (print : Bool) (my_id : Option Nat) (parties : Option (List String)) :
    Except Error Party :=
  match ParseProgramOptions print my_id parties with
  | .error e => .error e
  | .ok (id, parties_string) => CreateParty setupConnections parties_string id

/-- A connection setup that opens nothing and returns the table it was given;
used to observe the table `CreateParty` builds. -/
def observeConfiguration (_my_id : Nat) (parties_configuration : TcpPartiesConfiguration) :
    Except String TcpPartiesConfiguration :=
  .ok parties_configuration

/-! ## Vocabulary for lists of descriptors -/

/-- The three fields of a descriptor string, as written. -/
structure Fields where
  idf : List Char
  host : List Char
  portf : List Char
deriving DecidableEq

/-- The id a descriptor denotes: the decimal value of its id field. -/
def Fields.id (f : Fields) : Nat := decimalValue f.idf

/-- The port a descriptor denotes: the decimal value of its port field. -/
def Fields.port (f : Fields) : Nat := decimalValue f.portf

/-- The table entry a descriptor denotes: its host and its port. -/
def Fields.entry (f : Fields) : String × Nat := (String.mk f.host, f.port)

/-- The string `s` is a descriptor with the fields `f`. -/
def HasFields (s : String) (f : Fields) : Prop :=
  IsDescriptor s.data f.idf f.host f.portf

/-- The id fits `std::size_t` and the port fits `std::uint16_t`. -/
def Fields.Fits (f : Fields) : Prop := f.id ≤ SIZE_MAX ∧ f.port ≤ UINT16_MAX

instance (f : Fields) : Decidable f.Fits :=
  inferInstanceAs (Decidable (f.id ≤ SIZE_MAX ∧ f.port ≤ UINT16_MAX))

/-- The table after storing the entries of the descriptors in list order, each
at the index of its id. -/
def storeAll (fs : List Fields) (cfg : TcpPartiesConfiguration) : TcpPartiesConfiguration :=
  fs.foldl (fun c f => c.set f.id f.entry) cfg

/-! ## Role assignment of the connection setup -/

/-- The two roles a party can take towards a peer. -/
inductive Role where
  | listen : Role
  | dial : Role
deriving DecidableEq

/-- Modelled from the spec: the role rule of `TcpSetupHelper::SetupConnections`,
which belongs to the communication library and is not part of the sources.
Lower id listens, higher id dials, and there is no link to oneself. -/
def connectionRole (local_id p : Nat) : Option Role :=
  if local_id < p then some .listen
  else if local_id > p then some .dial
  else none

/-- Modelled from the spec: the links one party sets up, as the peer and the
role taken towards it, for the peers `0 .. n-1`. -/
def partyLinks (n local_id : Nat) : List (Nat × Role) :=
  (List.range n).filterMap (fun p => (connectionRole local_id p).map (fun r => (p, r)))

/-- Modelled from the spec: the connections of the whole group as
`(listener, dialer)` pairs, each one contributed by the party that listens. -/
def groupConnections (n : Nat) : List (Nat × Nat) :=
  (List.range n).flatMap
    (fun i => (partyLinks n i).filterMap
      (fun l => if l.2 = Role.listen then some (i, l.1) else none))

/-! ## Properties of the matcher -/

theorem mem_repRests (a : Atom) (inp : List Char) :
    ∀ (lo : Nat) (hi : Option Nat) (rest : List Char),
      rest ∈ repRests a lo hi inp ↔
        ∃ w, inp = w ++ rest ∧ (∀ x ∈ w, a.test x = true) ∧ lo ≤ w.length ∧
          (∀ m, hi = some m → w.length ≤ m) := by
  induction inp with
  | nil =>
    intro lo hi rest
    unfold repRests
    constructor
    · intro h
      split at h
      · simp at h
        subst h
        exact ⟨[], by simp, by simp, by simp; omega, by simp⟩
      · simp at h
    · rintro ⟨w, hw, -, hlo, -⟩
      have h1 : w = [] ∧ rest = [] := by
        cases w <;> simp_all
      obtain ⟨rfl, rfl⟩ := h1
      simp at hlo
      simp [hlo]
  | cons x xs ih =>
    intro lo hi rest
    unfold repRests
    rw [List.mem_append]
    constructor
    · rintro (h | h)
      · split at h
        · rename_i hc
          simp only [Bool.and_eq_true, bne_iff_ne, ne_eq] at hc
          obtain ⟨w, hw, hall, hlo, hhi⟩ := (ih _ _ _).1 h
          refine ⟨x :: w, by simp [hw], ?_, ?_, ?_⟩
          · intro y hy
            rcases List.mem_cons.1 hy with rfl | hy
            · exact hc.1
            · exact hall y hy
          · simp; omega
          · intro m hm
            subst hm
            have := hhi (m - 1) (by simp)
            have h0 : m ≠ 0 := by
              intro h0; exact hc.2 (by simp [h0])
            simp; omega
        · simp at h
      · split at h
        · rename_i h0
          simp at h
          subst h
          exact ⟨[], by simp, by simp, by simp [h0], by simp⟩
        · simp at h
    · rintro ⟨w, hw, hall, hlo, hhi⟩
      cases w with
      | nil =>
        right
        simp at hw hlo
        simp [hlo, hw]
      | cons y ys =>
        left
        simp only [List.cons_append, List.cons.injEq] at hw
        obtain ⟨rfl, rfl⟩ := hw
        have hx : a.test x = true := hall x (by simp)
        have hm : hi ≠ some 0 := by
          intro hm
          have := hhi 0 hm
          simp at this
        rw [if_pos (by simp [hx, hm])]
        refine (ih _ _ _).2 ⟨ys, rfl, fun z hz => hall z (by simp [hz]), ?_, ?_⟩
        · simp at hlo; omega
        · intro m hm2
          cases hi with
          | none => simp at hm2
          | some k =>
            simp at hm2
            have := hhi k rfl
            simp at this
            omega

theorem mem_run (r : Regex) :
    ∀ (inp : List Char) (c : Captures) (rest : List Char) (c2 : Captures),
      (rest, c2) ∈ r.run inp c ↔ ∃ w, inp = w ++ rest ∧ r.Matches w c c2 := by
  induction r with
  | atom a =>
    intro inp c rest c2
    cases inp with
    | nil => simp [Regex.run, Regex.Matches]
    | cons x xs =>
      simp only [Regex.run, Regex.Matches]
      constructor
      · intro h
        split at h
        · rename_i hx
          simp at h
          exact ⟨[x], by simp [h.1], ⟨x, rfl, hx⟩, h.2⟩
        · simp at h
      · rintro ⟨w, hw, ⟨y, rfl, hy⟩, rfl⟩
        simp at hw
        obtain ⟨rfl, rfl⟩ := hw
        simp [hy]
  | rep a lo hi =>
    intro inp c rest c2
    simp only [Regex.run, Regex.Matches, List.mem_map, Prod.mk.injEq]
    constructor
    · rintro ⟨r0, hr0, rfl, rfl⟩
      obtain ⟨w, hw, h1, h2, h3⟩ := (mem_repRests a inp lo hi r0).1 hr0
      exact ⟨w, hw, h1, h2, h3, rfl⟩
    · rintro ⟨w, hw, h1, h2, h3, rfl⟩
      exact ⟨rest, (mem_repRests a inp lo hi rest).2 ⟨w, hw, h1, h2, h3⟩, rfl, rfl⟩
  | seq r s ihr ihs =>
    intro inp c rest c2
    simp only [Regex.run, Regex.Matches, List.mem_flatMap]
    constructor
    · rintro ⟨⟨mid, cm⟩, hmid, hrest⟩
      obtain ⟨w1, hw1, hm1⟩ := (ihr _ _ _ _).1 hmid
      obtain ⟨w2, hw2, hm2⟩ := (ihs _ _ _ _).1 hrest
      simp only at hw2
      exact ⟨w1 ++ w2, by simp [hw1, hw2], w1, w2, cm, rfl, hm1, hm2⟩
    · rintro ⟨w, hw, w1, w2, cm, rfl, hm1, hm2⟩
      refine ⟨(w2 ++ rest, cm), (ihr _ _ _ _).2 ⟨w1, by simp [hw], hm1⟩, ?_⟩
      exact (ihs _ _ _ _).2 ⟨w2, rfl, hm2⟩
  | group k r ih =>
    intro inp c rest c2
    simp only [Regex.run, Regex.Matches, List.mem_map, Prod.mk.injEq]
    constructor
    · rintro ⟨⟨r0, cm⟩, hr0, rfl, rfl⟩
      obtain ⟨w, hw, hm⟩ := (ih _ _ _ _).1 hr0
      refine ⟨w, hw, cm, hm, ?_⟩
      simp [hw]
    · rintro ⟨w, hw, cm, hm, rfl⟩
      refine ⟨(rest, cm), (ih _ _ _ _).2 ⟨w, hw, hm⟩, rfl, ?_⟩
      simp [hw]

theorem matches_lit (a : Char) (w : List Char) (c c2 : Captures) :
    (Regex.atom (.lit a)).Matches w c c2 ↔ w = [a] ∧ c2 = c := by
  simp only [Regex.Matches, Atom.test, beq_iff_eq]
  constructor
  · rintro ⟨⟨x, rfl, rfl⟩, rfl⟩
    exact ⟨rfl, rfl⟩
  · rintro ⟨rfl, rfl⟩
    exact ⟨⟨a, rfl, rfl⟩, rfl⟩

theorem matches_seq_lit (a : Char) (s : Regex) (w : List Char) (c c2 : Captures) :
    (Regex.seq (.atom (.lit a)) s).Matches w c c2 ↔
      ∃ w2, w = a :: w2 ∧ s.Matches w2 c c2 := by
  constructor
  · rintro ⟨w1, w2, cm, rfl, h1, h2⟩
    obtain ⟨rfl, rfl⟩ := (matches_lit a w1 c cm).1 h1
    exact ⟨w2, rfl, h2⟩
  · rintro ⟨w2, rfl, h2⟩
    exact ⟨[a], w2, c, rfl, (matches_lit a [a] c c).2 ⟨rfl, rfl⟩, h2⟩

theorem matches_digits_bounded (lo hi : Nat) (w : List Char) (c c2 : Captures) :
    (Regex.rep .digit lo (some hi)).Matches w c c2 ↔ IsDigitGroup lo hi w ∧ c2 = c := by
  simp [Regex.Matches, Atom.test, IsDigitGroup, and_assoc]

theorem matches_digits_plus (w : List Char) (c c2 : Captures) :
    (Regex.rep .digit 1 none).Matches w c c2 ↔ IsDigits w ∧ c2 = c := by
  simp [Regex.Matches, Atom.test, IsDigits, and_assoc]

theorem matches_octet_dot (s : Regex) (w : List Char) (c c2 : Captures) :
    (Regex.seq octetRegex (.seq dotRegex s)).Matches w c c2 ↔
      ∃ a w2, w = a ++ '.' :: w2 ∧ IsDigitGroup 1 3 a ∧ s.Matches w2 c c2 := by
  constructor
  · rintro ⟨w1, w2, cm, rfl, h1, h2⟩
    obtain ⟨ha, rfl⟩ := (matches_digits_bounded 1 3 w1 c cm).1 h1
    obtain ⟨w3, rfl, h3⟩ := (matches_seq_lit '.' s w2 _ c2).1 h2
    exact ⟨w1, w3, rfl, ha, h3⟩
  · rintro ⟨a, w2, rfl, ha, h2⟩
    exact ⟨a, '.' :: w2, c, rfl, (matches_digits_bounded 1 3 a c c).2 ⟨ha, rfl⟩,
      (matches_seq_lit '.' s _ c c2).2 ⟨w2, rfl, h2⟩⟩

theorem matches_host (w : List Char) (c c2 : Captures) :
    (Regex.seq octetRegex (.seq dotRegex (.seq octetRegex (.seq dotRegex
      (.seq octetRegex (.seq dotRegex octetRegex)))))).Matches w c c2 ↔
      IsHost w ∧ c2 = c := by
  simp only [matches_octet_dot]
  constructor
  · rintro ⟨a, w2, rfl, ha, b, w3, rfl, hb, c3, w4, rfl, hc, hd⟩
    obtain ⟨hd4, rfl⟩ := (matches_digits_bounded 1 3 w4 c c2).1 hd
    exact ⟨⟨a, b, c3, w4, rfl, ha, hb, hc, hd4⟩, rfl⟩
  · rintro ⟨⟨a, b, c3, d, rfl, ha, hb, hc, hd⟩, rfl⟩
    exact ⟨a, _, rfl, ha, b, _, rfl, hb, c3, d, rfl, hc,
      (matches_digits_bounded 1 3 d c2 c2).2 ⟨hd, rfl⟩⟩

/-- What the pattern matches, and what it captures: exactly the descriptors,
with the three fields in groups 1, 2 and 3. -/
theorem matches_kPartyArgumentRegex (w : List Char) (c2 : Captures) :
    kPartyArgumentRegex.Matches w [] c2 ↔
      ∃ idf host portf, IsDescriptor w idf host portf ∧
        c2 = [(3, portf), (2, host), (1, idf)] := by
  unfold kPartyArgumentRegex commaRegex
  constructor
  · rintro ⟨w1, w2, cm, rfl, ⟨c1, h1, rfl⟩, h2⟩
    obtain ⟨hid, rfl⟩ := (matches_digits_plus w1 _ _).1 h1
    obtain ⟨w3, rfl, h3⟩ := (matches_seq_lit ',' _ _ _ _).1 h2
    obtain ⟨w4, w5, cm2, rfl, ⟨c4, h4, rfl⟩, h5⟩ := h3
    obtain ⟨hhost, rfl⟩ := (matches_host w4 _ _).1 h4
    obtain ⟨w6, rfl, ⟨c6, h6, rfl⟩⟩ := (matches_seq_lit ',' _ _ _ _).1 h5
    obtain ⟨hport, rfl⟩ := (matches_digits_bounded 1 5 w6 _ _).1 h6
    exact ⟨w1, w4, w6, ⟨rfl, hid, hhost, hport⟩, rfl⟩
  · rintro ⟨idf, host, portf, ⟨rfl, hid, hhost, hport⟩, rfl⟩
    refine ⟨idf, _, [(1, idf)], rfl, ⟨[], (matches_digits_plus idf _ _).2 ⟨hid, rfl⟩, rfl⟩, ?_⟩
    refine (matches_seq_lit ',' _ _ _ _).2 ⟨_, rfl, ?_⟩
    refine ⟨host, _, [(2, host), (1, idf)], rfl,
      ⟨[(1, idf)], (matches_host host _ _).2 ⟨hhost, rfl⟩, rfl⟩, ?_⟩
    refine (matches_seq_lit ',' _ _ _ _).2 ⟨_, rfl, ?_⟩
    exact ⟨_, (matches_digits_bounded 1 5 portf _ _).2 ⟨hport, rfl⟩, rfl⟩

theorem checkPartyArgumentSyntax_iff (s : String) :
    CheckPartyArgumentSyntax s = true ↔ InGrammar s.data := by
  unfold CheckPartyArgumentSyntax regex_match InGrammar
  simp only [Option.isSome_map', List.find?_isSome]
  constructor
  · rintro ⟨⟨rest, c2⟩, hmem, hrest⟩
    simp only [List.isEmpty_iff] at hrest
    subst hrest
    obtain ⟨w, hw, hm⟩ := (mem_run _ _ _ _ _).1 hmem
    simp only [List.append_nil] at hw
    subst hw
    obtain ⟨idf, host, portf, hd, -⟩ := (matches_kPartyArgumentRegex _ _).1 hm
    exact ⟨idf, host, portf, hd⟩
  · rintro ⟨idf, host, portf, hd⟩
    refine ⟨([], [(3, portf), (2, host), (1, idf)]), ?_, by simp⟩
    exact (mem_run _ _ _ _ _).2 ⟨s.data, by simp,
      (matches_kPartyArgumentRegex _ _).2 ⟨idf, host, portf, hd, rfl⟩⟩

/-! ## The fields of a descriptor are determined by the string -/

theorem split_unique (sep : Char) (a : List Char) :
    ∀ (a2 b b2 : List Char), (∀ x ∈ a, x ≠ sep) → (∀ x ∈ a2, x ≠ sep) →
      a ++ sep :: b = a2 ++ sep :: b2 → a = a2 ∧ b = b2 := by
  induction a with
  | nil =>
    intro a2 b b2 _ h2 h
    cases a2 with
    | nil => simpa using h
    | cons y ys =>
      simp only [List.nil_append, List.cons_append, List.cons.injEq] at h
      exact absurd h.1.symm (h2 y (by simp))
  | cons x xs ih =>
    intro a2 b b2 h1 h2 h
    cases a2 with
    | nil =>
      simp only [List.nil_append, List.cons_append, List.cons.injEq] at h
      exact absurd h.1 (h1 x (by simp))
    | cons y ys =>
      simp only [List.cons_append, List.cons.injEq] at h
      obtain ⟨rfl, hrest⟩ := h
      obtain ⟨rfl, rfl⟩ := ih ys b b2 (fun z hz => h1 z (by simp [hz]))
        (fun z hz => h2 z (by simp [hz])) hrest
      exact ⟨rfl, rfl⟩

theorem isDigit_ne_comma (x : Char) (h : x.isDigit = true) : x ≠ ',' := by
  rintro rfl
  exact absurd h (by decide)

theorem isDigit_ne_minus (x : Char) (h : x.isDigit = true) : x ≠ '-' := by
  rintro rfl
  exact absurd h (by decide)

theorem isDigit_ne_plus (x : Char) (h : x.isDigit = true) : x ≠ '+' := by
  rintro rfl
  exact absurd h (by decide)

theorem isHost_ne_comma (h : List Char) (hh : IsHost h) : ∀ x ∈ h, x ≠ ',' := by
  obtain ⟨a, b, c, d, rfl, ha, hb, hc, hd⟩ := hh
  intro x hx
  simp only [List.mem_append, List.mem_cons] at hx
  rcases hx with hx | rfl | hx | rfl | hx | rfl | hx
  · exact isDigit_ne_comma x (ha.1 x hx)
  · decide
  · exact isDigit_ne_comma x (hb.1 x hx)
  · decide
  · exact isDigit_ne_comma x (hc.1 x hx)
  · decide
  · exact isDigit_ne_comma x (hd.1 x hx)

theorem isDescriptor_unique (s idf host portf idf2 host2 portf2 : List Char)
    (h1 : IsDescriptor s idf host portf) (h2 : IsDescriptor s idf2 host2 portf2) :
    idf = idf2 ∧ host = host2 ∧ portf = portf2 := by
  obtain ⟨e1, hid1, hh1, -⟩ := h1
  obtain ⟨e2, hid2, hh2, -⟩ := h2
  obtain ⟨rfl, hrest⟩ := split_unique ',' idf idf2 _ _
    (fun x hx => isDigit_ne_comma x (hid1.1 x hx))
    (fun x hx => isDigit_ne_comma x (hid2.1 x hx)) (e1.symm.trans e2)
  obtain ⟨rfl, rfl⟩ := split_unique ',' host host2 _ _
    (isHost_ne_comma host hh1) (isHost_ne_comma host2 hh2) hrest
  exact ⟨rfl, rfl, rfl⟩

theorem regex_match_of_isDescriptor (s idf host portf : List Char)
    (h : IsDescriptor s idf host portf) :
    regex_match kPartyArgumentRegex s = some [(3, portf), (2, host), (1, idf)] := by
  unfold regex_match
  cases hf : (kPartyArgumentRegex.run s []).find? (fun p => p.1.isEmpty) with
  | none =>
    exfalso
    rw [List.find?_eq_none] at hf
    refine hf ([], [(3, portf), (2, host), (1, idf)]) ?_ (by simp)
    exact (mem_run _ _ _ _ _).2 ⟨s, by simp,
      (matches_kPartyArgumentRegex _ _).2 ⟨idf, host, portf, h, rfl⟩⟩
  | some p =>
    obtain ⟨rest, c2⟩ := p
    have hp := List.find?_some hf
    have hmem := List.mem_of_find?_eq_some hf
    simp only [List.isEmpty_iff] at hp
    subst hp
    obtain ⟨w, hw, hm⟩ := (mem_run _ _ _ _ _).1 hmem
    simp only [List.append_nil] at hw
    subst hw
    obtain ⟨idf2, host2, portf2, hd, rfl⟩ := (matches_kPartyArgumentRegex _ _).1 hm
    obtain ⟨rfl, rfl, rfl⟩ := isDescriptor_unique _ _ _ _ _ _ _ h hd
    rfl

theorem regex_match_of_not_inGrammar (s : String) (h : ¬ InGrammar s.data) :
    regex_match kPartyArgumentRegex s.data = none := by
  have hc : ¬ CheckPartyArgumentSyntax s = true :=
    fun hc => h ((checkPartyArgumentSyntax_iff s).1 hc)
  unfold CheckPartyArgumentSyntax at hc
  cases hm : regex_match kPartyArgumentRegex s.data with
  | none => rfl
  | some c => simp [hm] at hc

/-! ## Integer conversion -/

theorem lexical_cast_nil (max : Nat) : lexical_cast max [] = .error .bad_lexical_cast := by
  simp [lexical_cast]

theorem lexical_cast_digits (max : Nat) (w : List Char) (h : IsDigits w) :
    lexical_cast max w =
      if decimalValue w ≤ max then .ok (decimalValue w) else .error .bad_lexical_cast := by
  obtain ⟨hall, hlen⟩ := h
  cases w with
  | nil => simp at hlen
  | cons x xs =>
    have hx : x.isDigit = true := hall x (by simp)
    have h1 : x ≠ '-' := isDigit_ne_minus x hx
    have h2 : x ≠ '+' := isDigit_ne_plus x hx
    have hall2 : ∀ y ∈ xs, y.isDigit = true := fun y hy => hall y (by simp [hy])
    have e : ((∀ y ∈ xs, y.isDigit = true) ∧ decimalValue (x :: xs) ≤ max) ↔
        decimalValue (x :: xs) ≤ max := ⟨fun h => h.2, fun h => ⟨hall2, h⟩⟩
    simp [lexical_cast, h1, h2, hx, e]

theorem parse_of_isDescriptor (s : String) (idf host portf : List Char)
    (h : IsDescriptor s.data idf host portf) :
    ParsePartyArgument s =
      if decimalValue idf ≤ SIZE_MAX ∧ decimalValue portf ≤ UINT16_MAX then
        .ok (decimalValue idf, String.mk host, decimalValue portf)
      else .error .bad_lexical_cast := by
  have hid : IsDigits idf := h.2.1
  have hport : IsDigits portf := ⟨h.2.2.2.1, h.2.2.2.2.1⟩
  unfold ParsePartyArgument
  simp only [regex_match_of_isDescriptor _ _ _ _ h]
  have e1 : subMatch (some [(3, portf), (2, host), (1, idf)]) 1 = idf := by
    simp [subMatch, List.lookup]
  have e2 : subMatch (some [(3, portf), (2, host), (1, idf)]) 2 = host := by
    simp [subMatch, List.lookup]
  have e3 : subMatch (some [(3, portf), (2, host), (1, idf)]) 3 = portf := by
    simp [subMatch, List.lookup]
  rw [e1, e2, e3, lexical_cast_digits _ _ hid, lexical_cast_digits _ _ hport]
  by_cases c1 : decimalValue idf ≤ SIZE_MAX <;> by_cases c2 : decimalValue portf ≤ UINT16_MAX <;>
    simp [c1, c2]

theorem parse_of_not_inGrammar (s : String) (h : ¬ InGrammar s.data) :
    ParsePartyArgument s = .error .bad_lexical_cast := by
  unfold ParsePartyArgument
  simp only [regex_match_of_not_inGrammar s h]
  simp [subMatch, lexical_cast_nil]

/-! ## Decimal digits -/

theorem digitChar_facts :
    ∀ m, m < 10 → (Nat.digitChar m).isDigit = true ∧ digitValue (Nat.digitChar m) = m ∧
      (Nat.digitChar m = '0' → m = 0) := by
  decide

theorem decimalValue_append_singleton (w : List Char) (d : Char) :
    decimalValue (w ++ [d]) = 10 * decimalValue w + digitValue d := by
  simp [decimalValue, List.foldl_append]

theorem decimalValue_singleton (d : Char) : decimalValue [d] = digitValue d := by
  simp [decimalValue]

/-- The digits written for `n` in front of the accumulator: digit characters,
at least one, no leading zero unless `n = 0`, and their value is `n`. -/
theorem toDigitsCore_spec (fuel : Nat) :
    ∀ (n : Nat) (ds : List Char), n < fuel →
      ∃ pre, Nat.toDigitsCore 10 fuel n ds = pre ++ ds ∧
        (∀ x ∈ pre, x.isDigit = true) ∧ decimalValue pre = n ∧ 1 ≤ pre.length ∧
        (∀ k, 1 ≤ k → n < 10 ^ k → pre.length ≤ k) ∧ IsCanonical pre := by
  induction fuel with
  | zero => intro n ds h; omega
  | succ fuel ih =>
    intro n ds hn
    have hmod : n % 10 < 10 := Nat.mod_lt _ (by decide)
    obtain ⟨hd1, hd2, hd3⟩ := digitChar_facts (n % 10) hmod
    unfold Nat.toDigitsCore
    by_cases h0 : n / 10 = 0
    · simp only [h0, if_true]
      have hsmall : n % 10 = n := by omega
      refine ⟨[Nat.digitChar (n % 10)], by simp, ?_, ?_, by simp, ?_, ?_⟩
      · intro x hx
        simp only [List.mem_singleton] at hx
        subst hx
        exact hd1
      · rw [decimalValue_singleton, hd2, hsmall]
      · intro k hk _
        simpa using hk
      · by_cases hz : Nat.digitChar (n % 10) = '0'
        · left
          rw [hz]
        · right
          simpa using hz
    · simp only [h0, if_false]
      obtain ⟨pre, hpre, hdig, hval, hlen, hbound, hcan⟩ :=
        ih (n / 10) (Nat.digitChar (n % 10) :: ds) (by omega)
      refine ⟨pre ++ [Nat.digitChar (n % 10)], by simp [hpre], ?_, ?_, by simp, ?_, ?_⟩
      · intro x hx
        rcases List.mem_append.1 hx with hx | hx
        · exact hdig x hx
        · simp only [List.mem_singleton] at hx
          subst hx
          exact hd1
      · rw [decimalValue_append_singleton, hval, hd2]
        omega
      · intro k hk hnk
        have hk2 : 2 ≤ k := by
          by_contra hlt
          have : k = 1 := by omega
          subst this
          simp at hnk
          omega
        have hdiv : n / 10 < 10 ^ (k - 1) := by
          have e : 10 ^ k = 10 ^ (k - 1) * 10 := by
            rw [← Nat.pow_succ]
            congr 1
            omega
          rw [e] at hnk
          exact Nat.div_lt_of_lt_mul (by rw [Nat.mul_comm]; exact hnk)
        have := hbound (k - 1) (by omega) hdiv
        simp
        omega
      · right
        cases pre with
        | nil => simp at hlen
        | cons y ys =>
          rcases hcan with hcan | hcan
          · rw [hcan] at hval
            exact absurd hval.symm (by simpa [decimalValue, digitValue] using h0)
          · simpa using hcan

theorem toDigits_spec (n : Nat) :
    (∀ x ∈ Nat.toDigits 10 n, x.isDigit = true) ∧ decimalValue (Nat.toDigits 10 n) = n ∧
      1 ≤ (Nat.toDigits 10 n).length ∧
      (∀ k, 1 ≤ k → n < 10 ^ k → (Nat.toDigits 10 n).length ≤ k) ∧
      IsCanonical (Nat.toDigits 10 n) := by
  obtain ⟨pre, hpre, h⟩ := toDigitsCore_spec (n + 1) n [] (by omega)
  have e : Nat.toDigits 10 n = pre := by
    simpa [Nat.toDigits] using hpre
  rw [e]
  exact h

theorem isDigit_iff (c : Char) : c.isDigit = true ↔ 48 ≤ c.toNat ∧ c.toNat ≤ 57 := by
  simp only [Char.isDigit, Char.toNat, Bool.and_eq_true, decide_eq_true_eq, ge_iff_le,
    UInt32.le_def]
  exact Iff.rfl

theorem char_eq_of_toNat_eq (x y : Char) (h : x.toNat = y.toNat) : x = y := by
  rw [← Char.ofNat_toNat x, ← Char.ofNat_toNat y, h]

theorem digitValue_lt (c : Char) (h : c.isDigit = true) : digitValue c < 10 := by
  have := (isDigit_iff c).1 h
  unfold digitValue
  omega

theorem digitValue_inj (x y : Char) (hx : x.isDigit = true) (hy : y.isDigit = true)
    (h : digitValue x = digitValue y) : x = y := by
  have h1 := (isDigit_iff x).1 hx
  have h2 := (isDigit_iff y).1 hy
  unfold digitValue at h
  exact char_eq_of_toNat_eq x y (by omega)

theorem digitValue_pos (x : Char) (hx : x.isDigit = true) (h0 : x ≠ '0') :
    0 < digitValue x := by
  have h1 := (isDigit_iff x).1 hx
  by_contra hle
  apply h0
  apply char_eq_of_toNat_eq
  unfold digitValue at hle
  have e : ('0' : Char).toNat = 48 := by decide
  omega

theorem foldl_decimal_pos (t : List Char) :
    ∀ acc, 0 < acc → 0 < t.foldl (fun acc c => 10 * acc + digitValue c) acc := by
  induction t with
  | nil => intro acc h; simpa using h
  | cons x xs ih =>
    intro acc h
    simp only [List.foldl_cons]
    exact ih _ (by omega)

/-- A non-empty digit string that does not start with `0` has a positive value. -/
theorem decimalValue_pos (w : List Char) (hd : ∀ x ∈ w, x.isDigit = true)
    (hne : w ≠ []) (hh : w.head? ≠ some '0') : 0 < decimalValue w := by
  cases w with
  | nil => exact absurd rfl hne
  | cons x xs =>
    simp only [List.head?_cons, ne_eq, Option.some.injEq] at hh
    unfold decimalValue
    simp only [List.foldl_cons]
    exact foldl_decimal_pos xs _ (by
      have := digitValue_pos x (hd x (by simp)) hh
      omega)

theorem decimalValue_inj_aux (w1 : List Char) :
    ∀ w2 : List Char, (∀ x ∈ w1, x.isDigit = true) → (∀ x ∈ w2, x.isDigit = true) →
      w1.head? ≠ some '0' → w2.head? ≠ some '0' →
      decimalValue w1 = decimalValue w2 → w1 = w2 := by
  induction w1 using List.reverseRecOn with
  | nil =>
    intro w2 _ h2 _ hh2 hv
    by_contra hne
    have := decimalValue_pos w2 h2 (fun h => hne h.symm) hh2
    simp [decimalValue] at hv
    simp [decimalValue] at this
    omega
  | append_singleton a x ih =>
    intro w2 h1 h2 hh1 hh2 hv
    have hpos : 0 < decimalValue (a ++ [x]) := decimalValue_pos _ h1 (by simp) hh1
    rcases List.eq_nil_or_concat w2 with rfl | ⟨b, y, rfl⟩
    · simp [decimalValue] at hv
      simp [decimalValue] at hpos
      omega
    · rw [List.concat_eq_append] at hv h2 hh2 ⊢
      rw [decimalValue_append_singleton, decimalValue_append_singleton] at hv
      have hx := digitValue_lt x (h1 x (by simp))
      have hy := digitValue_lt y (h2 y (by simp))
      have hxy : x = y :=
        digitValue_inj x y (h1 x (by simp)) (h2 y (by simp)) (by omega)
      have hab : a = b := by
        apply ih b (fun z hz => h1 z (by simp [hz])) (fun z hz => h2 z (by simp [hz]))
        · cases a with
          | nil => simp
          | cons z zs => simpa using hh1
        · cases b with
          | nil => simp
          | cons z zs => simpa using hh2
        · omega
      rw [hxy, hab]

/-- Two digit strings without superfluous leading zeros that have the same
value are the same string. -/
theorem decimalValue_inj (w1 w2 : List Char) (h1 : IsDigits w1) (h2 : IsDigits w2)
    (c1 : IsCanonical w1) (c2 : IsCanonical w2)
    (hv : decimalValue w1 = decimalValue w2) : w1 = w2 := by
  have n1 : w1 ≠ [] := by
    intro h; have := h1.2; simp [h] at this
  have n2 : w2 ≠ [] := by
    intro h; have := h2.2; simp [h] at this
  rcases c1 with rfl | c1 <;> rcases c2 with rfl | c2
  · rfl
  · have := decimalValue_pos w2 h2.1 n2 c2
    rw [← hv] at this
    exact absurd this (by decide)
  · have := decimalValue_pos w1 h1.1 n1 c1
    rw [hv] at this
    exact absurd this (by decide)
  · exact decimalValue_inj_aux w1 w2 h1.1 h2.1 c1 c2 hv

theorem toDigits_decimalValue (w : List Char) (h : IsDigits w) (c : IsCanonical w) :
    Nat.toDigits 10 (decimalValue w) = w := by
  obtain ⟨hd, hv, hl, -, hc⟩ := toDigits_spec (decimalValue w)
  exact decimalValue_inj _ _ ⟨hd, hl⟩ h hc c hv

/-! ## Writing a descriptor back -/

theorem serialize_isDescriptor (id port : Nat) (host : List Char) (hh : IsHost host)
    (hp : port ≤ UINT16_MAX) :
    IsDescriptor (serialize (id, String.mk host, port)).data
      (Nat.toDigits 10 id) host (Nat.toDigits 10 port) := by
  obtain ⟨hd1, -, hl1, -, -⟩ := toDigits_spec id
  obtain ⟨hd2, -, hl2, hb2, -⟩ := toDigits_spec port
  refine ⟨rfl, ⟨hd1, hl1⟩, hh, hd2, hl2, hb2 5 (by decide) ?_⟩
  have : UINT16_MAX < 10 ^ 5 := by decide
  omega

theorem parse_serialize (id port : Nat) (host : List Char) (hh : IsHost host)
    (hi : id ≤ SIZE_MAX) (hp : port ≤ UINT16_MAX) :
    ParsePartyArgument (serialize (id, String.mk host, port)) =
      .ok (id, String.mk host, port) := by
  rw [parse_of_isDescriptor _ _ _ _ (serialize_isDescriptor id port host hh hp)]
  rw [(toDigits_spec id).2.1, (toDigits_spec port).2.1]
  simp [hi, hp]

theorem serialize_canonical (s : String) (idf host portf : List Char)
    (h : IsDescriptor s.data idf host portf)
    (c1 : IsCanonical idf) (c2 : IsCanonical portf) :
    serialize (decimalValue idf, String.mk host, decimalValue portf) = s := by
  unfold serialize
  simp only
  rw [toDigits_decimalValue idf h.2.1 c1,
    toDigits_decimalValue portf ⟨h.2.2.2.1, h.2.2.2.2.1⟩ c2, ← h.1]

/-! ## The loops of `ParseProgramOptions` and `CreateParty` -/

theorem parse_of_hasFields (s : String) (f : Fields) (h : HasFields s f) (hf : f.Fits) :
    ParsePartyArgument s = .ok (f.id, String.mk f.host, f.port) := by
  rw [parse_of_isDescriptor s _ _ _ h]
  exact if_pos hf

theorem lexical_cast_error (max : Nat) (w : List Char) (e : Error)
    (h : lexical_cast max w = .error e) : e = .bad_lexical_cast := by
  unfold lexical_cast at h
  dsimp only at h
  split_ifs at h <;> cases h <;> rfl

theorem parse_error (s : String) (e : Error) (h : ParsePartyArgument s = .error e) :
    e = .bad_lexical_cast := by
  unfold ParsePartyArgument at h
  dsimp only at h
  cases h1 : lexical_cast SIZE_MAX (subMatch (regex_match kPartyArgumentRegex s.data) 1) with
  | error e1 =>
    rw [h1] at h
    injection h with h
    subst h
    exact lexical_cast_error _ _ _ h1
  | ok id =>
    rw [h1] at h
    cases h3 : lexical_cast UINT16_MAX (subMatch (regex_match kPartyArgumentRegex s.data) 3) with
    | error e3 =>
      rw [h3] at h
      injection h with h
      subst h
      exact lexical_cast_error _ _ _ h3
    | ok port =>
      rw [h3] at h
      cases h

theorem fill_nil (n : Nat) (cfg : TcpPartiesConfiguration) :
    fillPartiesConfiguration n [] cfg = .ok cfg := rfl

theorem fill_cons_ok (n : Nat) (s : String) (rest : List String)
    (cfg : TcpPartiesConfiguration) (d : Nat × String × Nat)
    (h : ParsePartyArgument s = .ok d) :
    fillPartiesConfiguration n (s :: rest) cfg =
      if d.1 ≥ n then .error (.partyIdOutOfRange d.1 n)
      else fillPartiesConfiguration n rest (cfg.set d.1 (d.2.1, d.2.2)) := by
  show (match ParsePartyArgument s with
    | Except.error e => Except.error e
    | Except.ok (party_id, host, port) =>
      if party_id ≥ n then Except.error (Error.partyIdOutOfRange party_id n)
      else fillPartiesConfiguration n rest (cfg.set party_id (host, port))) = _
  rw [h]

theorem fill_cons_error (n : Nat) (s : String) (rest : List String)
    (cfg : TcpPartiesConfiguration) (e : Error)
    (h : ParsePartyArgument s = .error e) :
    fillPartiesConfiguration n (s :: rest) cfg = .error e := by
  show (match ParsePartyArgument s with
    | Except.error e => Except.error e
    | Except.ok (party_id, host, port) =>
      if party_id ≥ n then Except.error (Error.partyIdOutOfRange party_id n)
      else fillPartiesConfiguration n rest (cfg.set party_id (host, port))) = _
  rw [h]

theorem fill_ok (n : Nat) (ps : List String) (fs : List Fields)
    (h : List.Forall₂ (fun s f => HasFields s f ∧ f.Fits ∧ f.id < n) ps fs) :
    ∀ cfg, fillPartiesConfiguration n ps cfg = .ok (storeAll fs cfg) := by
  induction h with
  | nil => intro cfg; rfl
  | @cons s f ps2 fs2 h1 _ ih =>
    intro cfg
    rw [fill_cons_ok n s ps2 cfg _ (parse_of_hasFields s f h1.1 h1.2.1)]
    simp only [ge_iff_le, if_neg (Nat.not_le.2 h1.2.2)]
    rw [ih]
    rfl

theorem fill_error_kind (n : Nat) (ps : List String) :
    ∀ cfg e, fillPartiesConfiguration n ps cfg = .error e →
      e = .bad_lexical_cast ∨ ∃ a, e = .partyIdOutOfRange a n := by
  induction ps with
  | nil => intro cfg e h; simp [fill_nil] at h
  | cons s rest ih =>
    intro cfg e h
    cases hp : ParsePartyArgument s with
    | error e1 =>
      rw [fill_cons_error n s rest cfg e1 hp] at h
      injection h with h
      subst h
      exact Or.inl (parse_error s _ hp)
    | ok d =>
      rw [fill_cons_ok n s rest cfg d hp] at h
      split_ifs at h
      · injection h with h
        exact Or.inr ⟨d.1, h.symm⟩
      · exact ih _ _ h

theorem fill_first_out_of_range (n : Nat) (ps : List String) (fs : List Fields)
    (h : List.Forall₂ (fun s f => HasFields s f ∧ f.Fits) ps fs)
    (hex : ∃ f ∈ fs, n ≤ f.id) :
    ∃ fpre f fpost, fs = fpre ++ f :: fpost ∧ (∀ g ∈ fpre, g.id < n) ∧ n ≤ f.id ∧
      ∀ cfg, fillPartiesConfiguration n ps cfg = .error (.partyIdOutOfRange f.id n) := by
  induction h with
  | nil => simp at hex
  | @cons s f ps2 fs2 h1 _ ih =>
    by_cases hf : n ≤ f.id
    · refine ⟨[], f, fs2, rfl, by simp, hf, ?_⟩
      intro cfg
      rw [fill_cons_ok n s ps2 cfg _ (parse_of_hasFields s f h1.1 h1.2)]
      simp [hf]
    · have hex2 : ∃ g ∈ fs2, n ≤ g.id := by
        obtain ⟨g, hg, hgn⟩ := hex
        rcases List.mem_cons.1 hg with rfl | hg
        · exact absurd hgn hf
        · exact ⟨g, hg, hgn⟩
      obtain ⟨fpre, g, fpost, e, hpre, hg, hfill⟩ := ih hex2
      refine ⟨f :: fpre, g, fpost, by simp [e], ?_, hg, ?_⟩
      · intro x hx
        rcases List.mem_cons.1 hx with rfl | hx
        · omega
        · exact hpre x hx
      · intro cfg
        rw [fill_cons_ok n s ps2 cfg _ (parse_of_hasFields s f h1.1 h1.2)]
        simp only [ge_iff_le, if_neg hf]
        exact hfill _

theorem storeAll_length (fs : List Fields) :
    ∀ cfg, (storeAll fs cfg).length = cfg.length := by
  induction fs with
  | nil => intro cfg; rfl
  | cons f rest ih =>
    intro cfg
    simp only [storeAll, List.foldl_cons] at ih ⊢
    rw [ih]
    simp

theorem storeAll_untouched (fs : List Fields) (k : Nat) (hk : ∀ g ∈ fs, g.id ≠ k) :
    ∀ cfg, (storeAll fs cfg)[k]? = cfg[k]? := by
  induction fs with
  | nil => intro cfg; rfl
  | cons f rest ih =>
    intro cfg
    simp only [storeAll, List.foldl_cons] at ih ⊢
    rw [ih (fun g hg => hk g (by simp [hg]))]
    rw [List.getElem?_set_ne]
    exact hk f (by simp)

/-- The entry at an id is the one of the last descriptor that carries the id. -/
theorem storeAll_last (fpre fpost : List Fields) (f : Fields)
    (hpost : ∀ g ∈ fpost, g.id ≠ f.id) (cfg : TcpPartiesConfiguration)
    (hlt : f.id < cfg.length) :
    (storeAll (fpre ++ f :: fpost) cfg)[f.id]? = some f.entry := by
  have e : storeAll (fpre ++ f :: fpost) cfg =
      storeAll fpost ((storeAll fpre cfg).set f.id f.entry) := by
    simp [storeAll, List.foldl_append]
  rw [e, storeAll_untouched fpost f.id hpost]
  rw [List.getElem?_set_self]
  simp [storeAll_length, hlt]

theorem createParty_reaches_setup {Party : Type}
    (setup : Nat → TcpPartiesConfiguration → Except String Party)
    (ps : List String) (fs : List Fields) (my_id : Nat)
    (h : List.Forall₂ (fun s f => HasFields s f ∧ f.Fits ∧ f.id < ps.length) ps fs)
    (hmy : my_id < ps.length) :
    CreateParty setup ps my_id =
      liftTransport (setup my_id (storeAll fs (List.replicate ps.length defaultEntry))) := by
  unfold CreateParty
  simp only [ge_iff_le, if_neg (Nat.not_le.2 hmy)]
  rw [fill_ok ps.length ps fs h]

theorem checkParties_first_failure (ps : List String)
    (hex : ∃ s ∈ ps, CheckPartyArgumentSyntax s = false) :
    ∃ pre p post, ps = pre ++ p :: post ∧ (∀ q ∈ pre, CheckPartyArgumentSyntax q = true) ∧
      CheckPartyArgumentSyntax p = false ∧
      ∀ print acc, checkParties print ps acc = .error (.incorrectPartyArgument p) := by
  induction ps with
  | nil => simp at hex
  | cons s rest ih =>
    by_cases hs : CheckPartyArgumentSyntax s = true
    · have hex2 : ∃ q ∈ rest, CheckPartyArgumentSyntax q = false := by
        obtain ⟨q, hq, hqf⟩ := hex
        rcases List.mem_cons.1 hq with rfl | hq
        · simp [hs] at hqf
        · exact ⟨q, hq, hqf⟩
      obtain ⟨pre, p, post, e, hpre, hp, hrun⟩ := ih hex2
      refine ⟨s :: pre, p, post, by simp [e], ?_, hp, ?_⟩
      · intro q hq
        rcases List.mem_cons.1 hq with rfl | hq
        · exact hs
        · exact hpre q hq
      · intro print acc
        unfold checkParties
        simp only [hs, if_true]
        exact hrun _ _
    · have hs2 : CheckPartyArgumentSyntax s = false := by simpa using hs
      refine ⟨[], s, rest, rfl, by simp, hs2, ?_⟩
      intro print acc
      unfold checkParties
      simp [hs2]

/-! ## Role assignment -/

theorem partyLinks_succ (n i : Nat) :
    partyLinks (n + 1) i =
      partyLinks n i ++ ((connectionRole i n).map (fun r => (n, r))).toList := by
  unfold partyLinks
  rw [List.range_succ, List.filterMap_append]
  congr 1

theorem partyLinks_length (n i : Nat) :
    (partyLinks n i).length = if i < n then n - 1 else n := by
  induction n with
  | zero => simp [partyLinks]
  | succ n ih =>
    rw [partyLinks_succ, List.length_append, ih]
    unfold connectionRole
    by_cases h1 : i < n
    · have h2 : i < n + 1 := by omega
      simp [h1, h2]
      omega
    · by_cases h2 : i > n
      · have h3 : ¬ i < n + 1 := by omega
        simp [h1, h2, h3]
      · have h3 : i < n + 1 := by omega
        simp [h1, h2, h3]

theorem mem_partyLinks (n i p : Nat) (r : Role) :
    (p, r) ∈ partyLinks n i ↔ p < n ∧ connectionRole i p = some r := by
  unfold partyLinks
  simp only [List.mem_filterMap, List.mem_range, Option.map_eq_some', Prod.mk.injEq]
  constructor
  · rintro ⟨q, hq, r2, hr, rfl, rfl⟩
    exact ⟨hq, hr⟩
  · rintro ⟨hp, hr⟩
    exact ⟨p, hp, r, hr, rfl, rfl⟩

theorem connectionRole_listen (i p : Nat) : connectionRole i p = some .listen ↔ i < p := by
  unfold connectionRole
  by_cases h1 : i < p
  · simp [h1]
  · by_cases h2 : i > p <;> simp [h1, h2]

theorem connectionRole_dial (i p : Nat) : connectionRole i p = some .dial ↔ p < i := by
  unfold connectionRole
  by_cases h1 : i < p
  · simp [h1]
    omega
  · by_cases h2 : i > p
    · simp [h1, h2]
    · simp [h1, h2]

theorem mem_groupConnections (n a b : Nat) :
    (a, b) ∈ groupConnections n ↔ a < b ∧ b < n := by
  unfold groupConnections
  simp only [List.mem_flatMap, List.mem_range, List.mem_filterMap]
  constructor
  · rintro ⟨i, hi, ⟨p, r⟩, hl, hsome⟩
    simp only at hsome
    split_ifs at hsome with hr
    · simp only [Option.some.injEq, Prod.mk.injEq] at hsome
      obtain ⟨rfl, rfl⟩ := hsome
      subst hr
      obtain ⟨hp, hrole⟩ := (mem_partyLinks n i p _).1 hl
      exact ⟨(connectionRole_listen i p).1 hrole, hp⟩
  · rintro ⟨hab, hb⟩
    exact ⟨a, by omega, (b, .listen),
      (mem_partyLinks n a b _).2 ⟨hb, (connectionRole_listen a b).2 hab⟩, by simp⟩

theorem partyLinks_nodup (n i : Nat) : (partyLinks n i).Nodup := by
  unfold partyLinks
  apply List.Nodup.filterMap _ (List.nodup_range n)
  intro a a2 b hb hb2
  simp only [Option.mem_def, Option.map_eq_some'] at hb hb2
  obtain ⟨r, -, rfl⟩ := hb
  obtain ⟨r2, -, h2⟩ := hb2
  simp only [Prod.mk.injEq] at h2
  exact h2.1.symm

theorem groupConnections_nodup (n : Nat) : (groupConnections n).Nodup := by
  unfold groupConnections
  rw [List.nodup_flatMap]
  constructor
  · intro i _
    apply List.Nodup.filterMap _ (partyLinks_nodup n i)
    intro l l2 b hb hb2
    simp only [Option.mem_def] at hb hb2
    split_ifs at hb hb2 with h1 h2
    simp only [Option.some.injEq] at hb hb2
    subst hb
    simp only [Prod.mk.injEq, true_and] at hb2
    exact Prod.ext hb2.symm (h1.trans h2.symm)
  · apply (List.pairwise_lt_range n).imp
    intro i j hij
    rw [Function.onFun, List.disjoint_left]
    intro x hx hx2
    simp only [List.mem_filterMap] at hx hx2
    obtain ⟨l, -, hl⟩ := hx
    obtain ⟨l2, -, hl2⟩ := hx2
    split_ifs at hl hl2
    simp only [Option.some.injEq] at hl hl2
    subst hl
    simp only [Prod.mk.injEq] at hl2
    omega

theorem listening_count (n i : Nat) :
    ((partyLinks n i).filterMap
      (fun l => if l.2 = Role.listen then some (i, l.1) else none)).length = n - 1 - i := by
  induction n with
  | zero => simp [partyLinks]
  | succ n ih =>
    rw [partyLinks_succ, List.filterMap_append, List.length_append, ih]
    unfold connectionRole
    by_cases h1 : i < n
    · simp [h1]
      omega
    · by_cases h2 : i > n
      · simp [h1, h2]
        omega
      · simp [h1, h2]
        omega

theorem list_sum_range_eq (f : Nat → Nat) (n : Nat) :
    ((List.range n).map f).sum = ∑ i in Finset.range n, f i := by
  induction n with
  | zero => simp
  | succ n ih => rw [List.sum_range_succ, Finset.sum_range_succ, ih]

theorem groupConnections_length (n : Nat) :
    (groupConnections n).length = n * (n - 1) / 2 := by
  unfold groupConnections
  rw [List.length_flatMap]
  have e : (List.map (List.length ∘ fun i => (partyLinks n i).filterMap
      (fun l => if l.2 = Role.listen then some (i, l.1) else none)) (List.range n)) =
      (List.range n).map (fun i => n - 1 - i) := by
    apply List.map_congr_left
    intro i _
    exact listening_count n i
  rw [e, list_sum_range_eq, Finset.sum_range_reflect (fun i => i) n, Finset.sum_range_id]

theorem forall₂_right_mem {R : String → Fields → Prop} {ps : List String}
    {fs : List Fields} (h : List.Forall₂ R ps fs) :
    ∀ f ∈ fs, ∃ s ∈ ps, R s f := by
  induction h with
  | nil => intro f hf; simp at hf
  | @cons s f0 ps2 fs2 h1 _ ih =>
    intro f hf
    rcases List.mem_cons.1 hf with rfl | hf
    · exact ⟨s, by simp, h1⟩
    · obtain ⟨t, ht, hr⟩ := ih f hf
      exact ⟨t, by simp [ht], hr⟩

theorem forall₂_and_right {R : String → Fields → Prop} {Q : Fields → Prop}
    {ps : List String} {fs : List Fields} (h : List.Forall₂ R ps fs)
    (hq : ∀ f ∈ fs, Q f) : List.Forall₂ (fun s f => R s f ∧ Q f) ps fs := by
  induction h with
  | nil => exact List.Forall₂.nil
  | @cons s f0 ps2 fs2 h1 _ ih =>
    exact List.Forall₂.cons ⟨h1, hq f0 (by simp)⟩ (ih (fun f hf => hq f (by simp [hf])))

/-- A string has the fields `f` exactly when the match captures them. -/
theorem hasFields_iff (s : String) (f : Fields) :
    HasFields s f ↔
      regex_match kPartyArgumentRegex s.data = some [(3, f.portf), (2, f.host), (1, f.idf)] := by
  constructor
  · intro h
    exact regex_match_of_isDescriptor _ _ _ _ h
  · intro h
    have hc : CheckPartyArgumentSyntax s = true := by
      simp [CheckPartyArgumentSyntax, h]
    obtain ⟨idf, host, portf, hd⟩ := (checkPartyArgumentSyntax_iff s).1 hc
    rw [regex_match_of_isDescriptor _ _ _ _ hd] at h
    simp only [Option.some.injEq, List.cons.injEq, Prod.mk.injEq, true_and, and_true] at h
    obtain ⟨rfl, rfl, rfl⟩ := h
    exact hd

theorem uint16_max_eq : UINT16_MAX = 65535 := by decide

/-! ## The claims of the bootstrap specification -/

/-- C1: `CheckPartyArgumentSyntax s` is true exactly when the whole of `s` has the
form `id,host,port`, with `id` one or more ASCII digits, `host` four
dot-separated groups of 1 to 3 ASCII digits and `port` 1 to 5 ASCII digits. -/
theorem checkPartyArgumentSyntax_iff_inGrammar (s : String) :
    CheckPartyArgumentSyntax s = true ↔ InGrammar s.data :=
  checkPartyArgumentSyntax_iff s

/-- C2, as stated, fails: `0,1.2.3.4,70000` passes the syntax check, yet
`ParsePartyArgument` throws `bad_lexical_cast` on it, because 70000 is not a
`std::uint16_t`. -/
theorem parsePartyArgument_rejects_port_70000 :
    CheckPartyArgumentSyntax "0,1.2.3.4,70000" = true ∧
      ParsePartyArgument "0,1.2.3.4,70000" = .error .bad_lexical_cast := by
  decide

/-- C2, amended: when `s` matches the grammar, with the fields `f`, and the id
field is at most `SIZE_MAX` and the port field at most `UINT16_MAX`,
`ParsePartyArgument` returns the value of the id field, the host field and the
value of the port field; writing that triple back gives a string that parses
to the same triple, and gives `s` itself when the id and port fields have no
superfluous leading zeros. -/
theorem parsePartyArgument_roundtrip (s : String) (f : Fields)
    (h : HasFields s f) (hf : f.Fits) :
    ParsePartyArgument s = .ok (f.id, String.mk f.host, f.port) ∧
      ParsePartyArgument (serialize (f.id, String.mk f.host, f.port)) =
        .ok (f.id, String.mk f.host, f.port) ∧
      (IsCanonical f.idf → IsCanonical f.portf →
        serialize (f.id, String.mk f.host, f.port) = s) := by
  refine ⟨parse_of_hasFields s f h hf, ?_, ?_⟩
  · exact parse_serialize _ _ f.host h.2.2.1 hf.1 hf.2
  · intro c1 c2
    exact serialize_canonical s f.idf f.host f.portf h c1 c2

/-- C2, amended, at `007,127.0.0.1,23000`, whose id field has leading zeros, so
that writing back gives `7,127.0.0.1,23000`. -/
theorem parsePartyArgument_roundtrip_witness :
    ParsePartyArgument "007,127.0.0.1,23000" = .ok (7, "127.0.0.1", 23000) ∧
      serialize (7, "127.0.0.1", 23000) = "7,127.0.0.1,23000" ∧
      ParsePartyArgument (serialize (7, "127.0.0.1", 23000)) =
        .ok (7, "127.0.0.1", 23000) :=
  have h := parsePartyArgument_roundtrip "007,127.0.0.1,23000"
    (Fields.mk "007".data "127.0.0.1".data "23000".data)
    ((hasFields_iff _ _).2 (by decide)) (by decide)
  ⟨h.1, by decide, h.2.1⟩

/-- C3: on a string outside the descriptor grammar the syntax check returns false
and `ParsePartyArgument` returns no descriptor: it throws `bad_lexical_cast`. -/
theorem check_and_parse_fail_together (s : String) (h : ¬ InGrammar s.data) :
    CheckPartyArgumentSyntax s = false ∧
      ParsePartyArgument s = .error .bad_lexical_cast ∧
      ∀ d, ParsePartyArgument s ≠ .ok d := by
  have hp := parse_of_not_inGrammar s h
  refine ⟨?_, hp, ?_⟩
  · cases hc : CheckPartyArgumentSyntax s with
    | false => rfl
    | true => exact absurd ((checkPartyArgumentSyntax_iff s).1 hc) h
  · intro d hd
    rw [hp] at hd
    cases hd

/-- C3 at `1,localhost,9000`. -/
theorem check_and_parse_fail_together_witness :
    ¬ InGrammar "1,localhost,9000".data ∧
      CheckPartyArgumentSyntax "1,localhost,9000" = false ∧
      ParsePartyArgument "1,localhost,9000" = .error .bad_lexical_cast ∧
      ∀ d, ParsePartyArgument "1,localhost,9000" ≠ .ok d :=
  have hn : ¬ InGrammar "1,localhost,9000".data :=
    fun hg => absurd ((checkPartyArgumentSyntax_iff "1,localhost,9000").2 hg) (by decide)
  ⟨hn, check_and_parse_fail_together "1,localhost,9000" hn⟩

/-- C4, as stated, fails: with the two descriptors `0,10.0.0.1,1` and
`0,10.0.0.2,2`, both of id 0, and local id 0, `CreateParty` raises no error and
reaches the connection setup with a table whose entry 0 is the later
descriptor and whose entry 1 was never set. -/
theorem createParty_accepts_shared_id :
    CheckPartyArgumentSyntax "0,10.0.0.1,1" = true ∧
      CheckPartyArgumentSyntax "0,10.0.0.2,2" = true ∧
      CreateParty observeConfiguration ["0,10.0.0.1,1", "0,10.0.0.2,2"] 0 =
        .ok [("10.0.0.2", 2), ("", 0)] := by
  decide

/-- C4, amended: for descriptors whose ids are below the number of parties and
whose id and port fit their integer types, and a local id below the number of
parties, `CreateParty` raises none of its errors whether or not ids are
shared: it reaches the connection setup with a table of as many entries as
there are parties, in which the entry at an id is the one of the last
descriptor in list order that carries the id, and an id that no descriptor
carries keeps the default entry. -/
theorem createParty_last_write_wins (parties : List String) (fs : List Fields)
    (my_id : Nat)
    (hdesc : List.Forall₂
      (fun s f => HasFields s f ∧ f.Fits ∧ f.id < parties.length) parties fs)
    (hmy : my_id < parties.length) :
    ∃ cfg : TcpPartiesConfiguration, cfg.length = parties.length ∧
      (∀ (Party : Type) (setup : Nat → TcpPartiesConfiguration → Except String Party),
        CreateParty setup parties my_id = liftTransport (setup my_id cfg)) ∧
      (∀ fpre f fpost, fs = fpre ++ f :: fpost → (∀ g ∈ fpost, g.id ≠ f.id) →
        cfg[f.id]? = some f.entry) ∧
      (∀ k, k < parties.length → (∀ g ∈ fs, g.id ≠ k) → cfg[k]? = some defaultEntry) := by
  refine ⟨storeAll fs (List.replicate parties.length defaultEntry), ?_, ?_, ?_, ?_⟩
  · simp [storeAll_length]
  · intro Party setup
    exact createParty_reaches_setup setup parties fs my_id hdesc hmy
  · intro fpre f fpost e hpost
    subst e
    apply storeAll_last fpre fpost f hpost
    obtain ⟨s, -, hs⟩ := forall₂_right_mem hdesc f (by simp)
    simpa using hs.2.2
  · intro k hk hnone
    rw [storeAll_untouched fs k hnone]
    simp [hk]

/-- C4, amended, at the two descriptors `0,10.0.0.1,1` and `0,10.0.0.2,2` with
local id 0. -/
theorem createParty_last_write_wins_witness :
    ∃ cfg : TcpPartiesConfiguration,
      cfg.length = ["0,10.0.0.1,1", "0,10.0.0.2,2"].length ∧
      (∀ (Party : Type) (setup : Nat → TcpPartiesConfiguration → Except String Party),
        CreateParty setup ["0,10.0.0.1,1", "0,10.0.0.2,2"] 0 =
          liftTransport (setup 0 cfg)) ∧
      (∀ fpre f fpost,
        [Fields.mk "0".data "10.0.0.1".data "1".data,
          Fields.mk "0".data "10.0.0.2".data "2".data] = fpre ++ f :: fpost →
        (∀ g ∈ fpost, g.id ≠ f.id) → cfg[f.id]? = some f.entry) ∧
      (∀ k, k < ["0,10.0.0.1,1", "0,10.0.0.2,2"].length →
        (∀ g ∈ [Fields.mk "0".data "10.0.0.1".data "1".data,
          Fields.mk "0".data "10.0.0.2".data "2".data], g.id ≠ k) →
        cfg[k]? = some defaultEntry) :=
  createParty_last_write_wins ["0,10.0.0.1,1", "0,10.0.0.2,2"]
    [Fields.mk "0".data "10.0.0.1".data "1".data,
      Fields.mk "0".data "10.0.0.2".data "2".data] 0
    (List.Forall₂.cons ⟨(hasFields_iff _ _).2 (by decide), by decide, by decide⟩
      (List.Forall₂.cons ⟨(hasFields_iff _ _).2 (by decide), by decide, by decide⟩
        List.Forall₂.nil))
    (by decide)

/-- C5: for `N` descriptors whose ids are a permutation of `0 .. N-1`, each with
a port in `[1, 65535]`, and a local id below `N`, `CreateParty` raises none
of its errors: it reaches the connection setup with a table of exactly `N`
entries, and the entry at index `k` is the host and port of the one
descriptor whose id is `k`. (`N` is the size of a vector, at most
`SIZE_MAX`.) -/
theorem createParty_permutation (parties : List String) (fs : List Fields)
    (my_id : Nat)
    (hsize : parties.length ≤ SIZE_MAX)
    (hdesc : List.Forall₂
      (fun s f => HasFields s f ∧ 1 ≤ f.port ∧ f.port ≤ 65535) parties fs)
    (hperm : (fs.map Fields.id).Perm (List.range parties.length))
    (hmy : my_id < parties.length) :
    ∃ cfg : TcpPartiesConfiguration, cfg.length = parties.length ∧
      (∀ (Party : Type) (setup : Nat → TcpPartiesConfiguration → Except String Party),
        CreateParty setup parties my_id = liftTransport (setup my_id cfg)) ∧
      (∀ k, k < parties.length →
        ∃ f ∈ fs, f.id = k ∧ cfg[k]? = some f.entry ∧ ∀ g ∈ fs, g.id = k → g = f) := by
  have hid : ∀ f ∈ fs, f.id < parties.length := by
    intro f hf
    have : f.id ∈ fs.map Fields.id := List.mem_map_of_mem _ hf
    exact List.mem_range.1 (hperm.mem_iff.1 this)
  have hnodup : (fs.map Fields.id).Nodup := hperm.nodup_iff.2 (List.nodup_range _)
  have hdesc2 : List.Forall₂
      (fun s f => HasFields s f ∧ f.Fits ∧ f.id < parties.length) parties fs := by
    have h1 := forall₂_and_right hdesc hid
    refine h1.imp ?_
    rintro s f ⟨⟨hf, -, hport⟩, hlt⟩
    refine ⟨hf, ⟨by omega, ?_⟩, hlt⟩
    rw [uint16_max_eq]
    exact hport
  refine ⟨storeAll fs (List.replicate parties.length defaultEntry), ?_, ?_, ?_⟩
  · simp [storeAll_length]
  · intro Party setup
    exact createParty_reaches_setup setup parties fs my_id hdesc2 hmy
  · intro k hk
    have hkmem : k ∈ fs.map Fields.id := hperm.mem_iff.2 (List.mem_range.2 hk)
    obtain ⟨f, hf, rfl⟩ := List.mem_map.1 hkmem
    refine ⟨f, hf, rfl, ?_, ?_⟩
    · obtain ⟨fpre, fpost, e⟩ := List.append_of_mem hf
      subst e
      apply storeAll_last fpre fpost f
      · intro g hg heq
        rw [List.map_append, List.map_cons] at hnodup
        have h2 := (List.nodup_append.1 hnodup).2.1
        rw [List.nodup_cons] at h2
        exact h2.1 (heq ▸ List.mem_map_of_mem _ hg)
      · simpa using hk
    · intro g hg heq
      exact List.inj_on_of_nodup_map hnodup hg hf heq

/-- C5 at the three descriptors of ids 1, 0, 2 with local id 1. -/
theorem createParty_permutation_witness :
    ∃ cfg : TcpPartiesConfiguration,
      cfg.length = ["1,127.0.0.1,23001", "0,127.0.0.1,23000", "2,127.0.0.1,23002"].length ∧
      (∀ (Party : Type) (setup : Nat → TcpPartiesConfiguration → Except String Party),
        CreateParty setup ["1,127.0.0.1,23001", "0,127.0.0.1,23000", "2,127.0.0.1,23002"] 1 =
          liftTransport (setup 1 cfg)) ∧
      (∀ k, k < ["1,127.0.0.1,23001", "0,127.0.0.1,23000", "2,127.0.0.1,23002"].length →
        ∃ f ∈ [Fields.mk "1".data "127.0.0.1".data "23001".data,
            Fields.mk "0".data "127.0.0.1".data "23000".data,
            Fields.mk "2".data "127.0.0.1".data "23002".data],
          f.id = k ∧ cfg[k]? = some f.entry ∧
          ∀ g ∈ [Fields.mk "1".data "127.0.0.1".data "23001".data,
            Fields.mk "0".data "127.0.0.1".data "23000".data,
            Fields.mk "2".data "127.0.0.1".data "23002".data], g.id = k → g = f) :=
  createParty_permutation
    ["1,127.0.0.1,23001", "0,127.0.0.1,23000", "2,127.0.0.1,23002"]
    [Fields.mk "1".data "127.0.0.1".data "23001".data,
      Fields.mk "0".data "127.0.0.1".data "23000".data,
      Fields.mk "2".data "127.0.0.1".data "23002".data] 1
    (by decide)
    (List.Forall₂.cons ⟨(hasFields_iff _ _).2 (by decide), by decide, by decide⟩
      (List.Forall₂.cons ⟨(hasFields_iff _ _).2 (by decide), by decide, by decide⟩
        (List.Forall₂.cons ⟨(hasFields_iff _ _).2 (by decide), by decide, by decide⟩
          List.Forall₂.nil)))
    (by decide)
    (by decide)

/-- C6, as stated, fails: with three parties and the descriptor
`5,1.2.3.4,70000` in the list, `CreateParty` fails with `bad_lexical_cast`,
thrown by `ParsePartyArgument` on the port 70000 before the id is compared
with the number of parties; the id-range error is not raised. -/
theorem createParty_port_70000_not_range_error :
    CheckPartyArgumentSyntax "5,1.2.3.4,70000" = true ∧
      CreateParty observeConfiguration
        ["0,127.0.0.1,23000", "1,127.0.0.1,23001", "5,1.2.3.4,70000"] 0 =
        .error .bad_lexical_cast := by
  decide

/-- C6, amended: for descriptors whose id and port fit their integer types and a
local id below the number of parties `N`, if some descriptor has an id of at
least `N`, then `CreateParty` fails with the id-range error, for the first
such descriptor in list order, whatever the connection setup would do. -/
theorem createParty_id_out_of_range (parties : List String) (fs : List Fields)
    (my_id : Nat)
    (hdesc : List.Forall₂ (fun s f => HasFields s f ∧ f.Fits) parties fs)
    (hmy : my_id < parties.length)
    (hex : ∃ f ∈ fs, parties.length ≤ f.id) :
    ∃ fpre f fpost, fs = fpre ++ f :: fpost ∧
      (∀ g ∈ fpre, g.id < parties.length) ∧ parties.length ≤ f.id ∧
      ∀ (Party : Type) (setup : Nat → TcpPartiesConfiguration → Except String Party),
        CreateParty setup parties my_id =
          .error (.partyIdOutOfRange f.id parties.length) := by
  obtain ⟨fpre, f, fpost, e, hpre, hf, hfill⟩ :=
    fill_first_out_of_range parties.length parties fs hdesc hex
  refine ⟨fpre, f, fpost, e, hpre, hf, ?_⟩
  intro Party setup
  unfold CreateParty
  simp only [ge_iff_le, if_neg (Nat.not_le.2 hmy)]
  rw [hfill]

/-- C6, amended, at three parties with the descriptor `5,1.2.3.4,7000`. -/
theorem createParty_id_out_of_range_witness :
    CreateParty observeConfiguration
      ["0,127.0.0.1,23000", "5,1.2.3.4,7000", "1,127.0.0.1,23001"] 2 =
      .error (.partyIdOutOfRange 5 3) ∧
    ∃ fpre f fpost,
      [Fields.mk "0".data "127.0.0.1".data "23000".data,
        Fields.mk "5".data "1.2.3.4".data "7000".data,
        Fields.mk "1".data "127.0.0.1".data "23001".data] = fpre ++ f :: fpost ∧
      (∀ g ∈ fpre,
        g.id < ["0,127.0.0.1,23000", "5,1.2.3.4,7000", "1,127.0.0.1,23001"].length) ∧
      ["0,127.0.0.1,23000", "5,1.2.3.4,7000", "1,127.0.0.1,23001"].length ≤ f.id ∧
      ∀ (Party : Type) (setup : Nat → TcpPartiesConfiguration → Except String Party),
        CreateParty setup ["0,127.0.0.1,23000", "5,1.2.3.4,7000", "1,127.0.0.1,23001"] 2 =
          .error (.partyIdOutOfRange f.id
            ["0,127.0.0.1,23000", "5,1.2.3.4,7000", "1,127.0.0.1,23001"].length) :=
  ⟨by decide, createParty_id_out_of_range
    ["0,127.0.0.1,23000", "5,1.2.3.4,7000", "1,127.0.0.1,23001"]
    [Fields.mk "0".data "127.0.0.1".data "23000".data,
      Fields.mk "5".data "1.2.3.4".data "7000".data,
      Fields.mk "1".data "127.0.0.1".data "23001".data] 2
    (List.Forall₂.cons ⟨(hasFields_iff _ _).2 (by decide), by decide⟩
      (List.Forall₂.cons ⟨(hasFields_iff _ _).2 (by decide), by decide⟩
        (List.Forall₂.cons ⟨(hasFields_iff _ _).2 (by decide), by decide⟩
          List.Forall₂.nil)))
    (by decide)
    ⟨Fields.mk "5".data "1.2.3.4".data "7000".data, by decide, by decide⟩⟩

/-- C7: `CreateParty` fails with the invalid-local-id error exactly when the
local id is not below the number of party strings, and then it fails with
that error whatever the party strings contain, none of them being parsed. -/
theorem createParty_invalid_local_id {Party : Type}
    (setup : Nat → TcpPartiesConfiguration → Except String Party)
    (parties : List String) (my_id : Nat) :
    ((∃ a b, CreateParty setup parties my_id = .error (.myIdOutOfRange a b)) ↔
        parties.length ≤ my_id) ∧
      (parties.length ≤ my_id →
        CreateParty setup parties my_id =
          .error (.myIdOutOfRange my_id parties.length)) := by
  have hfail : parties.length ≤ my_id →
      CreateParty setup parties my_id = .error (.myIdOutOfRange my_id parties.length) := by
    intro h
    unfold CreateParty
    simp only [ge_iff_le, if_pos h]
  refine ⟨⟨?_, fun h => ⟨_, _, hfail h⟩⟩, hfail⟩
  rintro ⟨a, b, h⟩
  by_contra hlt
  unfold CreateParty at h
  simp only [ge_iff_le, if_neg hlt] at h
  cases hfill : fillPartiesConfiguration parties.length parties
      (List.replicate parties.length defaultEntry) with
  | error e =>
    rw [hfill] at h
    injection h with h
    subst h
    rcases fill_error_kind _ _ _ _ hfill with h1 | ⟨c, h1⟩ <;> cases h1
  | ok cfg =>
    rw [hfill] at h
    simp only at h
    cases hs : setup my_id cfg with
    | error e => rw [hs] at h; cases h
    | ok party => rw [hs] at h; cases h

/-- C7 with no party string at all, and with a malformed party string and the
local id 1. -/
theorem createParty_invalid_local_id_witness :
    CreateParty observeConfiguration [] 0 = .error (.myIdOutOfRange 0 0) ∧
      CreateParty observeConfiguration ["1,localhost,9000"] 1 =
        .error (.myIdOutOfRange 1 1) :=
  ⟨(createParty_invalid_local_id observeConfiguration [] 0).2 (by decide),
    (createParty_invalid_local_id observeConfiguration ["1,localhost,9000"] 1).2 (by decide)⟩

/-- C8: when a party string is outside the grammar, the bootstrap fails with the
malformed-descriptor error for the first such string in list order, its
message carrying that string, whatever the local id and the connection setup
are: `CreateParty` is not entered. -/
theorem bootstrap_reports_first_malformed (parties : List String)
    (h : ∃ s ∈ parties, ¬ InGrammar s.data) :
    ∃ pre p post, parties = pre ++ p :: post ∧ (∀ q ∈ pre, InGrammar q.data) ∧
      ¬ InGrammar p.data ∧
      (Error.incorrectPartyArgument p).what = "Incorrect party argument syntax " ++ p ∧
      ∀ (Party : Type) (setup : Nat → TcpPartiesConfiguration → Except String Party)
        (print : Bool) (my_id : Nat),
        bootstrap setup print (some my_id) (some parties) =
          .error (.incorrectPartyArgument p) := by
  have hex : ∃ s ∈ parties, CheckPartyArgumentSyntax s = false := by
    obtain ⟨s, hs, hn⟩ := h
    refine ⟨s, hs, ?_⟩
    cases hc : CheckPartyArgumentSyntax s with
    | false => rfl
    | true => exact absurd ((checkPartyArgumentSyntax_iff s).1 hc) hn
  obtain ⟨pre, p, post, e, hpre, hp, hrun⟩ := checkParties_first_failure parties hex
  refine ⟨pre, p, post, e, ?_, ?_, rfl, ?_⟩
  · intro q hq
    exact (checkPartyArgumentSyntax_iff q).1 (hpre q hq)
  · intro hg
    rw [(checkPartyArgumentSyntax_iff p).2 hg] at hp
    cases hp
  · intro Party setup print my_id
    unfold bootstrap ParseProgramOptions
    simp only [hrun]

/-- C8 at a list that holds `1,localhost,9000`, with a local id that is out of
range as well: the error is the one for the malformed string. -/
theorem bootstrap_reports_first_malformed_witness :
    (∃ s ∈ ["0,127.0.0.1,23000", "1,localhost,9000"], ¬ InGrammar s.data) ∧
    (∃ pre p post, ["0,127.0.0.1,23000", "1,localhost,9000"] = pre ++ p :: post ∧
      (∀ q ∈ pre, InGrammar q.data) ∧ ¬ InGrammar p.data ∧
      (Error.incorrectPartyArgument p).what = "Incorrect party argument syntax " ++ p ∧
      ∀ (Party : Type) (setup : Nat → TcpPartiesConfiguration → Except String Party)
        (print : Bool) (my_id : Nat),
        bootstrap setup print (some my_id)
          (some ["0,127.0.0.1,23000", "1,localhost,9000"]) =
          .error (.incorrectPartyArgument p)) ∧
    bootstrap observeConfiguration false (some 7)
      (some ["0,127.0.0.1,23000", "1,localhost,9000"]) =
      .error (.incorrectPartyArgument "1,localhost,9000") :=
  have hex : ∃ s ∈ ["0,127.0.0.1,23000", "1,localhost,9000"], ¬ InGrammar s.data :=
    ⟨"1,localhost,9000", by decide,
      fun hg => absurd ((checkPartyArgumentSyntax_iff "1,localhost,9000").2 hg) (by decide)⟩
  ⟨hex, bootstrap_reports_first_malformed ["0,127.0.0.1,23000", "1,localhost,9000"] hex,
    by decide⟩

/-- C9, as stated, fails: `0,1.2.3.4,0` passes the syntax check and
`ParsePartyArgument` returns the port 0, which is below 1. -/
theorem parsePartyArgument_accepts_port_zero :
    CheckPartyArgumentSyntax "0,1.2.3.4,0" = true ∧
      ParsePartyArgument "0,1.2.3.4,0" = .ok (0, "1.2.3.4", 0) := by
  decide

/-- C9, amended: when the syntax check is true and `ParsePartyArgument` returns
a descriptor, its port is at most 65535 (0 included) and is the decimal value
of the port field of the string. -/
theorem parsed_port_range (s : String) (id : Nat) (host : String) (port : Nat)
    (hc : CheckPartyArgumentSyntax s = true)
    (hp : ParsePartyArgument s = .ok (id, host, port)) :
    port ≤ 65535 ∧ ∃ f : Fields, HasFields s f ∧ port = f.port := by
  obtain ⟨idf, host2, portf, hd⟩ := (checkPartyArgumentSyntax_iff s).1 hc
  rw [parse_of_isDescriptor s _ _ _ hd] at hp
  split_ifs at hp with hfit
  injection hp with hp
  simp only [Prod.mk.injEq] at hp
  obtain ⟨-, -, rfl⟩ := hp
  refine ⟨?_, ⟨idf, host2, portf⟩, hd, rfl⟩
  rw [← uint16_max_eq]
  exact hfit.2

/-- C9, amended, at `3,10.0.0.7,65535`. -/
theorem parsed_port_range_witness :
    CheckPartyArgumentSyntax "3,10.0.0.7,65535" = true ∧
      ParsePartyArgument "3,10.0.0.7,65535" = .ok (3, "10.0.0.7", 65535) ∧
      (65535 ≤ 65535 ∧
        ∃ f : Fields, HasFields "3,10.0.0.7,65535" f ∧ 65535 = f.port) :=
  ⟨by decide, by decide,
    parsed_port_range "3,10.0.0.7,65535" 3 "10.0.0.7" 65535 (by decide) (by decide)⟩

/-- C10: with the role rule lower id listens, higher id dials, a party with a
local id below `n` listens towards exactly the peers above it and dials
exactly the peers below it, has `n - 1` links and none to itself; of two
distinct ids exactly one listens and the other dials; and the connections
of the group are the pairs `a < b < n`, each once, `n * (n - 1) / 2` in
all. -/
theorem connection_roles (n local_id : Nat) (h : local_id < n) :
    (∀ p, (connectionRole local_id p = some .listen ↔ local_id < p) ∧
        (connectionRole local_id p = some .dial ↔ p < local_id)) ∧
      connectionRole local_id local_id = none ∧
      (partyLinks n local_id).length = n - 1 ∧
      (∀ p r, (p, r) ∈ partyLinks n local_id ↔
        p < n ∧ p ≠ local_id ∧ connectionRole local_id p = some r) ∧
      (∀ i j, i ≠ j →
        (connectionRole i j = some .listen ∧ connectionRole j i = some .dial) ∨
        (connectionRole i j = some .dial ∧ connectionRole j i = some .listen)) ∧
      (∀ a b, (a, b) ∈ groupConnections n ↔ a < b ∧ b < n) ∧
      (groupConnections n).Nodup ∧
      (groupConnections n).length = n * (n - 1) / 2 := by
  refine ⟨fun p => ⟨connectionRole_listen _ _, connectionRole_dial _ _⟩, ?_, ?_, ?_, ?_,
    mem_groupConnections n, groupConnections_nodup n, groupConnections_length n⟩
  · simp [connectionRole]
  · rw [partyLinks_length, if_pos h]
  · intro p r
    rw [mem_partyLinks]
    constructor
    · rintro ⟨hp, hr⟩
      refine ⟨hp, ?_, hr⟩
      rintro rfl
      simp [connectionRole] at hr
    · rintro ⟨hp, -, hr⟩
      exact ⟨hp, hr⟩
  · intro i j hij
    rcases Nat.lt_or_gt_of_ne hij with hlt | hgt
    · exact Or.inl ⟨(connectionRole_listen i j).2 hlt, (connectionRole_dial j i).2 hlt⟩
    · exact Or.inr ⟨(connectionRole_dial i j).2 hgt, (connectionRole_listen j i).2 hgt⟩

/-- C10 at three parties and the local id 1: one listening link towards 2, one
dialing link towards 0, three connections in the group. -/
theorem connection_roles_witness :
    partyLinks 3 1 = [(0, Role.dial), (2, Role.listen)] ∧
      groupConnections 3 = [(0, 1), (0, 2), (1, 2)] ∧
      (groupConnections 3).length = 3 * (3 - 1) / 2 :=
  ⟨by decide, by decide, (connection_roles 3 1 (by decide)).2.2.2.2.2.2.2⟩

end Conclave
